import Mathlib

/-!
# Verification of the apathy access-log path-graph generator

Shallow embedding of the core data structures and algorithms of the
apathy repository (`src/hash.c`, `src/request.c`, `src/session.c`,
`src/truncate.c`, `src/path_graph.c`, `src/field.c`, `src/apathy.c`),
together with proofs settling the specification claims.

Machine integers (`uint64_t`) are modelled as `Nat` reduced modulo `2 ^ 64`
where overflow matters.  Strings are modelled as `List Char` (the sources
only ever handle plain bytes; all concrete inputs are ASCII).  Heap
buffers with doubling capacity are modelled as plain lists: the capacity
bookkeeping (`lim_nedges`, `caprequests`) has no observable effect on the
fields the claims speak about.  `libc`'s `qsort` is modelled relationally
by its documented postcondition: the output is a permutation of the input
that is sorted with respect to the comparator (`qsort` does not promise
anything about the relative order of elements that compare equal).
-/

/-! ## FNV-1a hash (src/hash.c) -/

/-- `FNV_PRIME64` from src/hash.c. -/
def FNV_PRIME64 : Nat := 1099511628211

/-- `FNV_BASIS64` from src/hash.c. -/
def FNV_BASIS64 : Nat := 14695981039346656037

/-- `hash64_init` from src/hash.c: returns the FNV-1a 64-bit basis. -/
def hash64_init : Nat := FNV_BASIS64

/-- One step of the loop body of `hash64_update` (src/hash.c:25-29):
`hash ^= s[i]; hash *= FNV_PRIME64;` on `uint64_t`. -/
def hash64_step (h : Nat) (c : Char) : Nat :=
  ((h ^^^ c.toNat) * FNV_PRIME64) % 2 ^ 64

/-- `hash64_update` from src/hash.c: folds `hash64_step` over the bytes. -/
def hash64_update (h : Nat) (s : List Char) : Nat :=
  s.foldl hash64_step h

/-! ## Request set (src/request.c)

`add_request_set_entry` (src/request.c:79-142) assembles a raw request
buffer, truncates it, hashes the canonical string, picks the bucket
`hash & REQUEST_SET_BUCKET_MASK`, and interns the canonical string in
that bucket, minting a fresh `RequestId` from the shared counter on a
miss.  We model the state after the canonical (post-truncation) string
has been produced: the per-bucket uthash chains are modelled as a single
entry list where each entry records its bucket index, and a lookup
matches on bucket and key bytes exactly as `HASH_FIND` does. -/

/-- `REQUEST_ID_INVAL` (`UINT64_MAX`) from src/request.h. -/
def REQUEST_ID_INVAL : Nat := 2 ^ 64 - 1

/-- `struct request_set_entry` from src/request.h: canonical string,
its FNV hash, and the minted `RequestId`; we also record the bucket the
entry was inserted into. -/
structure request_set_entry where
  data : List Char
  hash : Nat
  bucket : Nat
  rid : Nat
deriving Repr, DecidableEq

/-- `struct request_set` from src/request.h: the bucket chains (flattened,
each entry tagged with its bucket index) and the `rid_ctr` counter. -/
structure request_set where
  entries : List request_set_entry
  rid_ctr : Nat
deriving Repr, DecidableEq

/-- `init_request_set` (src/request.c:144-158): empty buckets,
`rid_ctr = REQUEST_ID_START = 0`. -/
def init_request_set : request_set :=
  { entries := [], rid_ctr := 0 }

/-- `HASH_FIND` in bucket `b` with key `canon` (src/request.c:113):
uthash compares keys by their bytes. -/
def request_set_find (rs : request_set) (b : Nat) (canon : List Char) :
    Option request_set_entry :=
  rs.entries.find? (fun e => e.bucket = b ∧ e.data = canon)

/-- Bucket selection of `add_request_set_entry` (src/request.c:104-105):
`hash & REQUEST_SET_BUCKET_MASK`, a mask over `256` buckets. -/
def request_bucket (canon : List Char) : Nat :=
  hash64_update hash64_init canon % 256

/-- `add_request_set_entry` (src/request.c:79-142), applied to the
canonical (post-truncation) request string: hash and bucket selection,
lookup by key bytes (src/request.c:113), and on a miss an insertion
with a freshly minted `RequestId` from `rid_ctr` (src/request.c:130).
Returns the new state and the returned `RequestId`. -/
def add_request_set_entry (rs : request_set) (canon : List Char) :
    request_set × Nat :=
  match request_set_find rs (request_bucket canon) canon with
  | some e => (rs, e.rid)
  | none =>
      ({ entries := rs.entries ++
           [⟨canon, hash64_update hash64_init canon, request_bucket canon,
             rs.rid_ctr⟩],
         rid_ctr := rs.rid_ctr + 1 }, rs.rid_ctr)

/-- Runs a sequence of `add_request_set_entry` calls (one per canonical
string), returning the final state and the list of returned ids. -/
def run_request_set : request_set → List (List Char) → request_set × List Nat
  | rs, [] => (rs, [])
  | rs, c :: cs =>
      let p := add_request_set_entry rs c
      let q := run_request_set p.1 cs
      (q.1, p.2 :: q.2)

/-- The ids returned by a sequence of calls starting from the freshly
initialized request set. -/
def request_ids (ops : List (List Char)) : List Nat :=
  (run_request_set init_request_set ops).2

/-! ## Session map (src/session.c, src/apathy.c)

`run_thread` (src/apathy.c:864-887) builds the session id by folding
`hash64_update` over the bytes of every session-contributing field, in
scan order, with no separator between fields.  `amend_session_map_entry`
(src/session.c:24-86) then appends `(ts, rid)` to the entry keyed by
that sid, creating the entry on first sight.  The bucket index is a pure
function of the sid and uthash keys entries by the sid within a bucket,
so entry identity is determined by the sid alone; we model the map as
the list of its entries in creation order. -/

/-- The session id computed by `run_thread` (src/apathy.c:872-873):
`sid = hash64_update(sid, fv->src, fv->len)` folded over the
session-contributing fields, starting from `hash64_init()`. -/
def session_sid (fields : List (List Char)) : Nat :=
  fields.foldl hash64_update hash64_init

/-- `struct session_request` from src/session.h. -/
structure session_request where
  rid : Nat
  ts : Nat
deriving Repr, DecidableEq

/-- `struct session_map_entry` from src/session.h: the sid key and the
growable request buffer. -/
structure session_map_entry where
  sid : Nat
  requests : List session_request
deriving Repr, DecidableEq

/-- `amend_session_map_entry` (src/session.c:24-86): find the entry
keyed by `sid`; create it with the single request on a miss, otherwise
append `(ts, rid)` at index `nrequests`. -/
def amend_session_map_entry :
    List session_map_entry → Nat → Nat → Nat → List session_map_entry
  | [], sid, ts, rid => [⟨sid, [⟨rid, ts⟩]⟩]
  | e :: rest, sid, ts, rid =>
      if e.sid = sid then
        { e with requests := e.requests ++ [⟨rid, ts⟩] } :: rest
      else
        e :: amend_session_map_entry rest sid ts rid

/-- Runs a sequence of `amend_session_map_entry` calls
(`(sid, ts, rid)` triples) on an initialized (empty) session map. -/
def run_session_map (ops : List (Nat × Nat × Nat)) : List session_map_entry :=
  ops.foldl (fun sm o => amend_session_map_entry sm o.1 o.2.1 o.2.2) []

/-- The request list stored in the entry keyed by `sid`
(empty if no such entry exists). -/
def session_entry_requests (sm : List session_map_entry) (sid : Nat) :
    List session_request :=
  match sm.find? (fun e => e.sid = sid) with
  | some e => e.requests
  | none => []

/-! ## Truncation engine (src/truncate.c)

`truncate_raw_request` (src/truncate.c:128-185) scans the pattern list
for the first pattern whose compiled regex matches the raw buffer
(src/truncate.c:146-154); if none matches the raw buffer is copied
through (src/truncate.c:156-159).  Otherwise a do-while loop
(src/truncate.c:168-181) repeatedly emits the prefix before the current
match followed by the alias and resumes searching after the match; when
no further match exists the loop exits, so the text after the last
match's end is never copied into the output buffer.

The patterns are compiled with `regcomp(REG_EXTENDED)` and searched with
`regexec` (src/regex.c), an external library; POSIX specifies that the
reported match is the leftmost one and, at that position, the longest.
We embed the fragment of extended regular expressions that the verified
patterns use (literals and a `+`-repeated character range) with exactly
that leftmost-longest semantics. -/

/-- A POSIX ERE atom of the fragment under verification: a literal
character, or a character range repeated one or more times (`[lo-hi]+`). -/
inductive regex_atom where
  | lit : Char → regex_atom
  | plusRange : Char → Char → regex_atom
deriving Repr, DecidableEq

/-- Length of the maximal prefix of `s` whose characters lie in
`[lo, hi]`. -/
def range_run (lo hi : Char) : List Char → Nat
  | [] => 0
  | c :: rest => if lo ≤ c ∧ c ≤ hi then range_run lo hi rest + 1 else 0

/-- The larger of two optional match lengths. -/
def opt_max : Option Nat → Option Nat → Option Nat
  | none, b => b
  | some a, none => some a
  | some a, some b => some (max a b)

/-- Best (longest) total match length when a `+`-repetition consumes
between `1` and `k` characters and `f` reports the longest match of the
rest of the pattern on the corresponding suffix. -/
def plus_best (f : List Char → Option Nat) : Nat → List Char → Option Nat
  | 0, _ => none
  | k + 1, s => opt_max (plus_best f k s) ((f (s.drop (k + 1))).map (· + (k + 1)))

/-- Longest length `L` such that the pattern matches exactly the first
`L` characters of `s`, or `none` when no match starts at the head. -/
def matchLen : List regex_atom → List Char → Option Nat
  | [], _ => some 0
  | .lit _ :: _, [] => none
  | .lit c :: p, x :: s => if x = c then (matchLen p s).map (· + 1) else none
  | .plusRange lo hi :: p, s => plus_best (matchLen p) (range_run lo hi s) s

/-- Leftmost match search from offset `i`: the first start position with
a match wins, and `matchLen` picks the longest match there. -/
def find_regex_from (p : List regex_atom) : List Char → Nat → Option (Nat × Nat)
  | [], i =>
      match matchLen p [] with
      | some L => some (i, i + L)
      | none => none
  | x :: t, i =>
      match matchLen p (x :: t) with
      | some L => some (i, i + L)
      | none => find_regex_from p t (i + 1)

/-- `get_regex_matches` (src/regex.c:43-47) restricted to the first
match slot: the leftmost-longest match of `p` in `s` as a half-open
offset pair, or `none` (`REG_NOMATCH`). -/
def get_regex_matches (p : List regex_atom) (s : List Char) : Option (Nat × Nat) :=
  find_regex_from p s 0

/-- A truncation pattern: compiled regex plus alias
(`struct truncate_patterns` slots, src/truncate.h). -/
structure trunc_pattern where
  pat : List regex_atom
  al : List Char
deriving Repr, DecidableEq

/-- The do-while substitution loop of `truncate_raw_request`
(src/truncate.c:168-181): for each match emit the preceding prefix and
the alias, resume after the match; when no match remains, exit without
emitting the rest of the buffer.  The fuel argument only serves
termination; `s.length + 1` is enough for every pattern that cannot
match the empty string. -/
def subst_matches : Nat → List regex_atom → List Char → List Char → List Char
  | 0, _, _, _ => []
  | fuel + 1, p, al, s =>
      match get_regex_matches p s with
      | none => []
      | some (i, j) => s.take i ++ al ++ subst_matches fuel p al (s.drop j)

/-- The pattern-selection loop of `truncate_raw_request`
(src/truncate.c:146-154): the first pattern in declared order whose
regex matches the raw buffer. -/
def truncate_find_first : List trunc_pattern → List Char → Option trunc_pattern
  | [], _ => none
  | pa :: rest, s =>
      if (get_regex_matches pa.pat s).isSome then some pa
      else truncate_find_first rest s

/-- `truncate_raw_request` (src/truncate.c:128-185): pass the input
through when no pattern matches, otherwise run the substitution loop of
the first matching pattern. -/
def truncate_raw_request (tp : List trunc_pattern) (s : List Char) : List Char :=
  match truncate_find_first tp s with
  | none => s
  | some pa => subst_matches (s.length + 1) pa.pat pa.al s

/-- Modelled from the spec (§4.4 Truncation Engine) for the refinement
claim C5: a single pattern's pass replaces each non-overlapping
leftmost match with the alias and keeps the text after the last match. -/
def spec_replace_all : Nat → List regex_atom → List Char → List Char → List Char
  | 0, _, _, s => s
  | fuel + 1, p, al, s =>
      match get_regex_matches p s with
      | none => s
      | some (i, j) => s.take i ++ al ++ spec_replace_all fuel p al (s.drop j)

/-- Modelled from the spec (§4.4 Truncation Engine) for the refinement
claim C5: "apply all patterns in order ... after exhausting a pattern,
move to the next pattern operating on the already-substituted string". -/
def spec_truncate (tp : List trunc_pattern) (s : List Char) : List Char :=
  tp.foldl (fun acc pa => spec_replace_all (acc.length + 1) pa.pat pa.al acc) s

/-- The prefixes preceding each non-overlapping leftmost match of `p`
in `s`, in order. -/
def match_chunks : Nat → List regex_atom → List Char → List (List Char)
  | 0, _, _ => []
  | fuel + 1, p, s =>
      match get_regex_matches p s with
      | none => []
      | some (i, j) => s.take i :: match_chunks fuel p (s.drop j)

/-- Spec-style statement of what the code actually computes (for the
amended claim C5): if some pattern matches, take the first such pattern
and emit, for each of its non-overlapping leftmost matches, the
preceding prefix followed by the alias — nothing else. -/
def first_pattern_only (tp : List trunc_pattern) (s : List Char) : List Char :=
  match tp.find? (fun pa => (get_regex_matches pa.pat s).isSome) with
  | none => s
  | some pa =>
      ((match_chunks (s.length + 1) pa.pat s).map (fun pre => pre ++ pa.al)).flatten

/-- The truncation pattern list declared by the file line
`$ID = /u/[0-9]+` (scenario S3 / claim C6). -/
def tp_ID : List trunc_pattern :=
  [⟨[.lit '/', .lit 'u', .lit '/', .plusRange '0' '9'], "$ID".toList⟩]

/-! ## Path graph (src/path_graph.c)

`gen_path_graph` (src/path_graph.c:160-204) iterates the session map,
sorts every entry's request list with `qsort`, walks consecutive pairs
feeding `amend_path_graph_vertex`, and finally `qsort`s the first
`nvertices` cells of the vertex array and every vertex's edge list.
`qsort` is external (libc); it is modelled relationally by
`qsort_post`.  The `double` field `duration_cma` is modelled as `ℚ`
(exact arithmetic; no claim under verification depends on
floating-point rounding). -/

/-- `struct path_graph_edge` from src/path_graph.h. -/
structure path_graph_edge where
  rid : Nat
  nhits : Nat
  duration_cma : ℚ
deriving Repr, DecidableEq

/-- `struct path_graph_vertex` from src/path_graph.h (`nedges` is the
length of `edges`; `lim_nedges` is allocation bookkeeping with no
observable effect). -/
structure path_graph_vertex where
  rid : Nat
  edges : List path_graph_edge
  total_nhits_in : Nat
  total_nhits_out : Nat
  min_depth : Nat
deriving Repr, DecidableEq

/-- `NULL_VERTEX` from src/path_graph.h (static initialization zeroes
`min_depth`). -/
def NULL_VERTEX : path_graph_vertex :=
  { rid := REQUEST_ID_INVAL, edges := [], total_nhits_in := 0,
    total_nhits_out := 0, min_depth := 0 }

/-- `struct path_graph` from src/path_graph.h. -/
structure path_graph where
  total_nedges : Nat
  total_nhits : Nat
  nvertices : Nat
  vertices : List path_graph_vertex
deriving Repr, DecidableEq

/-- `init_path_graph` (src/path_graph.c:135-151): `capvertices = cap`
null vertices, zeroed totals. -/
def init_path_graph (cap : Nat) : path_graph :=
  { total_nedges := 0, total_nhits := 0, nvertices := 0,
    vertices := List.replicate cap NULL_VERTEX }

/-- The edge-update loop of `amend_path_graph_vertex`
(src/path_graph.c:51-65): find the first edge towards `er`, fold the
new duration into its cumulative moving average
`(duration + nhits * cma) / (nhits + 1)` and increment its hit count;
`none` when no such edge exists. -/
def bump_edge : List path_graph_edge → Nat → ℚ → Option (List path_graph_edge)
  | [], _, _ => none
  | e :: rest, er, dur =>
      if e.rid = er then
        some ({ e with
                duration_cma :=
                  (dur + (e.nhits : ℚ) * e.duration_cma) / ((e.nhits : ℚ) + 1)
                nhits := e.nhits + 1 } :: rest)
      else
        (bump_edge rest er dur).map (e :: ·)

/-- `amend_path_graph_vertex` (src/path_graph.c:8-89). -/
def amend_path_graph_vertex (pg : path_graph)
    (depth rid edge_rid ts edge_ts : Nat) : path_graph :=
  let v := pg.vertices.getD rid NULL_VERTEX
  let dur : ℚ := (edge_ts : ℚ) - (ts : ℚ)
  if v.rid = REQUEST_ID_INVAL then
    if edge_rid ≠ REQUEST_ID_INVAL then
      { pg with
        vertices := pg.vertices.set rid
          { rid := rid, edges := [⟨edge_rid, 1, dur⟩], total_nhits_in := 1,
            total_nhits_out := 1, min_depth := depth }
        total_nedges := pg.total_nedges + 1
        total_nhits := pg.total_nhits + 1
        nvertices := pg.nvertices + 1 }
    else
      { pg with
        vertices := pg.vertices.set rid
          { rid := rid, edges := [], total_nhits_in := 1,
            total_nhits_out := 0, min_depth := depth }
        total_nhits := pg.total_nhits + 1
        nvertices := pg.nvertices + 1 }
  else
    let v1 := { v with
                total_nhits_in := v.total_nhits_in + 1
                min_depth := min depth v.min_depth }
    if edge_rid = REQUEST_ID_INVAL then
      { pg with
        vertices := pg.vertices.set rid v1
        total_nhits := pg.total_nhits + 1 }
    else
      match bump_edge v1.edges edge_rid dur with
      | some es =>
          { pg with
            vertices := pg.vertices.set rid
              { v1 with
                edges := es
                total_nhits_out := v1.total_nhits_out + 1 }
            total_nhits := pg.total_nhits + 1 }
      | none =>
          { pg with
            vertices := pg.vertices.set rid
              { v1 with
                edges := v1.edges ++ [⟨edge_rid, 1, dur⟩]
                total_nhits_out := v1.total_nhits_out + 1 }
            total_nhits := pg.total_nhits + 1
            total_nedges := pg.total_nedges + 1 }

/-- The rid of the successor request (`edge_rid`,
src/path_graph.c:181-188): `REQUEST_ID_INVAL` when none exists. -/
def next_rid : List session_request → Nat
  | [] => REQUEST_ID_INVAL
  | y :: _ => y.rid

/-- The ts of the successor request (`edge_ts`): `0` when none exists. -/
def next_ts : List session_request → Nat
  | [] => 0
  | y :: _ => y.ts

/-- The per-session walk of `gen_path_graph` (src/path_graph.c:175-192):
`depth` starts at 1 and advances only on non-self-loop transitions. -/
def gen_session_edges : path_graph → Nat → List session_request → path_graph
  | pg, _, [] => pg
  | pg, depth, x :: rest =>
      let pg1 := amend_path_graph_vertex pg depth x.rid (next_rid rest)
                   x.ts (next_ts rest)
      gen_session_edges pg1 (if x.rid = next_rid rest then depth else depth + 1)
        rest

/-- The edge-generation phase of `gen_path_graph`
(src/path_graph.c:168-194), applied to the session request lists in
iteration order, each already sorted by the `qsort` call of
src/path_graph.c:173-174 (the sorting itself is modelled by
`qsort_post` below).  The final vertex/edge `qsort` calls
(src/path_graph.c:196-203) permute the vertex prefix and each edge
list; they are likewise related to this core result via `qsort_post`. -/
def gen_path_graph_core (cap : Nat) (sessions : List (List session_request)) :
    path_graph :=
  sessions.foldl (fun pg s => gen_session_edges pg 1 s) (init_path_graph cap)

/-- `cmp_session_request` (src/path_graph.c:91-101): returns `0` on
equal timestamps, otherwise the C expression `r1->ts > r2->ts`
(which is `1` or `0` — it never returns a negative value). -/
def cmp_session_request (r1 r2 : session_request) : Int :=
  if r1.ts = r2.ts then 0 else if r1.ts > r2.ts then 1 else 0

/-- `v.total_nhits_in + v.total_nhits_out`, the score used by
`cmp_path_graph_vertex_by_hits` (src/path_graph.c:114-115). -/
def vertex_score (v : path_graph_vertex) : Nat :=
  v.total_nhits_in + v.total_nhits_out

/-- `cmp_path_graph_vertex_by_hits` (src/path_graph.c:103-121). -/
def cmp_path_graph_vertex_by_hits (v1 v2 : path_graph_vertex) : Int :=
  if v1.min_depth < v2.min_depth then -1
  else if v1.min_depth > v2.min_depth then 1
  else if vertex_score v1 = vertex_score v2 then 0
  else if vertex_score v1 < vertex_score v2 then 1
  else 0

/-- The documented postcondition of libc `qsort` with comparator `cmp`:
the output is a permutation of the input and, for every pair of
positions in order, the earlier element does not compare greater than
the later one.  `qsort` guarantees nothing else about the order of
elements that compare equal. -/
def qsort_post {α : Type} (cmp : α → α → Int) (l l2 : List α) : Prop :=
  l2.Perm l ∧ List.Pairwise (fun a b => cmp a b ≤ 0) l2

/-- A stable ascending-by-timestamp sort (insertion sort): the order
claimed by the specification for `qsort(cmp_session_request)`. -/
def insert_by_ts (x : session_request) :
    List session_request → List session_request
  | [] => [x]
  | y :: rest => if x.ts ≤ y.ts then x :: y :: rest else y :: insert_by_ts x rest

/-- Stable insertion sort by ascending timestamp. -/
def stable_sort_by_ts : List session_request → List session_request
  | [] => []
  | x :: rest => insert_by_ts x (stable_sort_by_ts rest)

/-- The vertex order claimed by C7: `min_depth` ascending, then score
descending, remaining ties by `rid` ascending. -/
def claimed_vertex_le (v1 v2 : path_graph_vertex) : Prop :=
  v1.min_depth < v2.min_depth ∨
    (v1.min_depth = v2.min_depth ∧
      (vertex_score v2 < vertex_score v1 ∨
        (vertex_score v1 = vertex_score v2 ∧ v1.rid ≤ v2.rid)))

/-! ### Occurrence depths

The loop of src/path_graph.c:175-192 assigns to the occurrence at index
`i` of a request list the depth `1 + #{j < i | l[j].rid ≠ l[j+1].rid}`:
`depth` starts at `1` and is incremented after every element whose
successor has a different rid. -/

/-- Depths at which `v` occurs in a request list walked from depth `d`. -/
def occ_depths : Nat → List session_request → Nat → List Nat
  | _, [], _ => []
  | d, x :: rest, v =>
      (if x.rid = v then [d] else []) ++
        occ_depths (if x.rid = next_rid rest then d else d + 1) rest v

/-- 1-based positions at which `v` occurs in a request list, counting
from `i`. -/
def occ_positions : Nat → List session_request → Nat → List Nat
  | _, [], _ => []
  | i, x :: rest, v =>
      (if x.rid = v then [i] else []) ++ occ_positions (i + 1) rest v

/-- Fold a further value into an optional running minimum. -/
def merge_min : Option Nat → Nat → Option Nat
  | none, d => some d
  | some m, d => some (min m d)

/-- Minimum of `ds` folded onto an optional starting point. -/
def mins_from (o : Option Nat) (ds : List Nat) : Option Nat :=
  ds.foldl merge_min o

/-- The `min_depth` recorded for rid `r`, viewed through nullness:
`none` when the cell holds a null vertex. -/
def vertex_depth (pg : path_graph) (r : Nat) : Option Nat :=
  let v := pg.vertices.getD r NULL_VERTEX
  if v.rid = REQUEST_ID_INVAL then none else some v.min_depth

/-- Minimum occurrence depth of rid `r` over all sessions. -/
def all_occ_min (sessions : List (List session_request)) (r : Nat) : Option Nat :=
  sessions.foldl (fun o s => mins_from o (occ_depths 1 s r)) none

/-- Minimum 1-based occurrence position of rid `r` over all sessions
(the quantity the specification claims `min_depth` equals). -/
def all_pos_min (sessions : List (List session_request)) (r : Nat) : Option Nat :=
  sessions.foldl (fun o s => mins_from o (occ_positions 1 s r)) none

/-- The per-vertex invariant of claim C4: `total_nhits_out` is the sum
of the edge hit counts, and `total_nhits_in` dominates it. -/
def vertex_hits_inv (v : path_graph_vertex) : Prop :=
  v.total_nhits_out = (v.edges.map path_graph_edge.nhits).sum ∧
    v.total_nhits_out ≤ v.total_nhits_in

/-! ## Field scanner and worker scan loop (src/apathy.c, src/field.c)

`get_fields` (src/apathy.c:364-472) is a three-state machine over the
mapped bytes; the end of the file is the `'\0'` sentinel byte appended
by `mmap_file` (modelled here as the end of the character list).  When
`skip_line_seek` is false the function first skips to the byte after
the next newline.  `run_thread` (src/apathy.c:853-888) walks its chunk
`[start, end)` calling `get_fields` with
`skip_line_seek = (src == log_view->src)` — true exactly at the file's
first byte — and feeds every line whose field count matches
`lc->ntotal_fields` to the request set and session map. -/

/-- The scanner states of `get_fields` (src/apathy.c:373-377). -/
inductive scan_state where
  | seek
  | standalone
  | dquoted
deriving Repr, DecidableEq

/-- Separator test of the scanner: space, tab, vertical tab. -/
def is_field_sep (c : Char) : Bool :=
  c = ' ' || c = '\t' || c.toNat = 11

/-- Close the in-progress field, if any. -/
def flush_fields (done : List (List Char)) (cur : Option (List Char)) :
    List (List Char) :=
  match cur with
  | some f => done ++ [f]
  | none => done

/-- The running `nfields` counter of `get_fields`: completed fields plus
the one in progress. -/
def nfields_now (done : List (List Char)) (cur : Option (List Char)) : Nat :=
  done.length + (if cur.isSome then 1 else 0)

/-- The `fill_fields` loop of `get_fields` (src/apathy.c:393-471).
`s` is the remaining input (its end is the `'\0'` sentinel), `pos` the
absolute offset of its head.  Returns the collected fields and the
continuation offset (`none` models `*endp = NULL`). -/
def fill_fields (max : Nat) :
    List Char → scan_state → List (List Char) → Option (List Char) → Nat →
      List (List Char) × Option Nat
  | s, st, done, cur, pos =>
    if nfields_now done cur = max then (flush_fields done cur, some pos)
    else
      match s with
      | [] => (flush_fields done cur, none)
      | c :: t =>
        match st with
        | .seek =>
            if c = '\n' then (flush_fields done cur, some pos)
            else if is_field_sep c then
              fill_fields max t .seek done cur (pos + 1)
            else if c = '"' then
              fill_fields max t .dquoted done (some []) (pos + 1)
            else
              fill_fields max t .standalone done (some [c]) (pos + 1)
        | .standalone =>
            if is_field_sep c then
              fill_fields max t .seek (flush_fields done cur) none (pos + 1)
            else if c = '\n' then (flush_fields done cur, some pos)
            else
              fill_fields max t .standalone done (some (cur.getD [] ++ [c]))
                (pos + 1)
        | .dquoted =>
            if c = '\n' then (flush_fields done cur, some pos)
            else if c = '"' then
              fill_fields max t .seek (flush_fields done cur) none (pos + 1)
            else
              fill_fields max t .dquoted done (some (cur.getD [] ++ [c]))
                (pos + 1)

/-- The skip-to-next-line loop of `get_fields` (src/apathy.c:386-390):
number of bytes consumed, including the terminating newline (or the
sentinel at end of input). -/
def skip_line_len : List Char → Nat
  | [] => 1
  | c :: t => if c = '\n' then 1 else 1 + skip_line_len t

/-- `get_fields` (src/apathy.c:364-472) at absolute offset `pos` of
`file`. -/
def get_fields (file : List Char) (max pos : Nat) (skip_line_seek : Bool) :
    List (List Char) × Option Nat :=
  if skip_line_seek then
    fill_fields max (file.drop pos) .seek [] none pos
  else
    let k := skip_line_len (file.drop pos)
    fill_fields max (file.drop (pos + k)) .seek [] none (pos + k)

/-- `NFIELDS_MAX` from src/apathy.c. -/
def NFIELDS_MAX : Nat := 256

/-- The tokenization of the first logical line performed by
`init_line_config` (src/apathy.c:916-919): `get_fields` at the start of
the file with `skip_line_seek = 1`.  `lc->ntotal_fields` is the length
of this list. -/
def init_line_config_fields (file : List Char) : List (List Char) :=
  (get_fields file NFIELDS_MAX 0 true).1

/-- The scan loop of `run_thread` (src/apathy.c:853-888) over the chunk
`[pos, endPos)`: the list of field vectors of the lines whose field
count matches `ntotal` — exactly the lines fed to
`add_request_set_entry` and `amend_session_map_entry`
(src/apathy.c:864-887).  `skip_line_seek` is true exactly when the
cursor sits at the file's first byte.  The fuel argument only serves
termination. -/
def run_thread_records (file : List Char) (ntotal endPos : Nat) :
    Nat → Nat → List (List (List Char))
  | 0, _ => []
  | fuel + 1, pos =>
    if endPos ≤ pos then []
    else
      let r := get_fields file NFIELDS_MAX pos (pos = 0)
      match r.2 with
      | none => if r.1.length = ntotal then [r.1] else []
      | some pos2 =>
          if r.1.length = ntotal then
            r.1 :: run_thread_records file ntotal endPos fuel pos2
          else
            run_thread_records file ntotal endPos fuel pos2

/-! ## Interning invariants (for claim C1) -/

/-- The id currently interned for a canonical string: the rid of the
entry found in the string's bucket, if any. -/
def lookup_rid (rs : request_set) (canon : List Char) : Option Nat :=
  (request_set_find rs (request_bucket canon) canon).map request_set_entry.rid

/-- State invariant of the request set: every entry sits in the bucket
of its own canonical string with a rid below the counter, and entries
have pairwise distinct canonical strings and pairwise distinct rids. -/
def rs_inv (rs : request_set) : Prop :=
  (∀ e ∈ rs.entries, e.bucket = request_bucket e.data ∧ e.rid < rs.rid_ctr)
  ∧ rs.entries.Pairwise (fun e1 e2 => e1.data ≠ e2.data ∧ e1.rid ≠ e2.rid)

/-! ## Decidability instances for the relational specifications -/

instance qsort_post_decidable {α : Type} [DecidableEq α] (cmp : α → α → Int)
    (l l2 : List α) : Decidable (qsort_post cmp l l2) := by
  unfold qsort_post
  infer_instance

instance claimed_vertex_le_decidable (v1 v2 : path_graph_vertex) :
    Decidable (claimed_vertex_le v1 v2) := by
  unfold claimed_vertex_le
  infer_instance

instance vertex_hits_inv_decidable (v : path_graph_vertex) :
    Decidable (vertex_hits_inv v) := by
  unfold vertex_hits_inv
  infer_instance

/-! ## Theorems -/

/-! ### C10 — the first line is both config source and data record -/

/-- The first processed record of the worker whose chunk starts at the
file's first byte. -/
theorem run_thread_records_head (file : List Char) (ntotal endPos fuel : Nat)
    (hend : 0 < endPos) (hfuel : 0 < fuel)
    (hn : (get_fields file NFIELDS_MAX 0 true).1.length = ntotal) :
    ∃ rest, run_thread_records file ntotal endPos fuel 0
      = (get_fields file NFIELDS_MAX 0 true).1 :: rest := by
  obtain ⟨f, rfl⟩ : ∃ f, fuel = f + 1 := ⟨fuel - 1, by omega⟩
  rw [run_thread_records]
  rw [if_neg (by omega)]
  have hskip : (decide (0 = 0)) = true := by decide
  cases hend2 : (get_fields file NFIELDS_MAX 0 true).2 with
  | none =>
      refine ⟨[], ?_⟩
      simp only [hskip, hend2, hn, if_pos rfl]
      simp [hend2, hn]
  | some pos2 =>
      refine ⟨run_thread_records file ntotal endPos f pos2, ?_⟩
      simp only [hskip, hend2, hn, if_pos rfl]
      simp [hend2, hn]

/-- C10: the first logical line is not only used to infer the line
configuration: the worker whose chunk starts at the file's first byte
calls `get_fields` with `skip_line_seek` true at offset `0`, so its
first processed record is exactly the field vector of the first line —
the same vector `init_line_config` tokenizes — and since
`lc->ntotal_fields` is that vector's length, the record passes the
field-count check and feeds the request set, the session map and the
hit totals like every other line. -/
theorem C10_first_line_data_record (file : List Char) (endPos fuel : Nat)
    (hend : 0 < endPos) (hfuel : 0 < fuel) :
    ∃ rest, run_thread_records file (init_line_config_fields file).length
        endPos fuel 0 = init_line_config_fields file :: rest :=
  run_thread_records_head file _ endPos fuel hend hfuel rfl

/-- Witness for C10 on a concrete two-line log file. -/
theorem C10_first_line_data_record_witness :
    (0 : Nat) < 10 ∧ (0 : Nat) < 5 ∧
      ∃ rest, run_thread_records "t1 a\nt2 b\n".toList
          (init_line_config_fields "t1 a\nt2 b\n".toList).length 10 5 0
        = init_line_config_fields "t1 a\nt2 b\n".toList :: rest :=
  ⟨by decide, by decide,
    C10_first_line_data_record "t1 a\nt2 b\n".toList 10 5 (by decide) (by decide)⟩

/-! ### C9 — session partitioning -/

/-- Effect of one `amend_session_map_entry` call on the entry keyed by
an arbitrary sid. -/
theorem session_entry_requests_amend (sm : List session_map_entry)
    (sid ts rid sidq : Nat) :
    session_entry_requests (amend_session_map_entry sm sid ts rid) sidq
      = session_entry_requests sm sidq ++
          (if sid = sidq then [⟨rid, ts⟩] else []) := by
  induction sm with
  | nil =>
      by_cases h : sid = sidq
      · subst h
        simp [amend_session_map_entry, session_entry_requests]
      · simp [amend_session_map_entry, session_entry_requests,
          List.find?_cons_of_neg, h, Ne.symm h]
  | cons e rest ih =>
      by_cases he : e.sid = sid
      · subst he
        by_cases hq : e.sid = sidq
        · simp [amend_session_map_entry, session_entry_requests,
            List.find?_cons_of_pos, hq]
        · simp [amend_session_map_entry, session_entry_requests,
            List.find?_cons_of_neg, hq]
      · by_cases hq : e.sid = sidq
        · have hsq : ¬(sid = sidq) := fun h => he (hq.trans h.symm)
          have hqs : ¬(sidq = sid) := fun h => hsq h.symm
          simp [amend_session_map_entry, session_entry_requests,
            List.find?_cons_of_pos, he, hq, hsq, hqs]
        · simp only [amend_session_map_entry, if_neg he]
          simp only [session_entry_requests] at ih ⊢
          rw [List.find?_cons_of_neg _ (by simp [hq]),
            List.find?_cons_of_neg _ (by simp [hq])]
          exact ih

/-- The session map after a sequence of amend calls: for every sid, the
entry keyed by it holds exactly the requests of the calls made with
that sid, in call order. -/
theorem run_session_map_requests (ops : List (Nat × Nat × Nat)) :
    ∀ (sm : List session_map_entry) (sid : Nat),
      session_entry_requests
          (ops.foldl (fun sm o => amend_session_map_entry sm o.1 o.2.1 o.2.2) sm)
          sid
        = session_entry_requests sm sid ++
            (ops.filter (fun o => o.1 = sid)).map
              (fun o => session_request.mk o.2.2 o.2.1) := by
  induction ops with
  | nil => intro sm sid; simp
  | cons o rest ih =>
      intro sm sid
      by_cases h : o.1 = sid
      · simp only [List.foldl_cons, ih, session_entry_requests_amend,
          List.filter_cons, h]
        simp
      · simp only [List.foldl_cons, ih, session_entry_requests_amend,
          List.filter_cons, if_neg h]
        simp [h]

/-- Fields are hashed back to back: the sid depends only on the byte
concatenation of the session-contributing fields. -/
theorem session_sid_flatten (fields : List (List Char)) :
    session_sid fields = hash64_update hash64_init fields.flatten := by
  suffices h : ∀ (h0 : Nat) (fs : List (List Char)),
      fs.foldl hash64_update h0 = hash64_update h0 fs.flatten by
    exact h hash64_init fields
  intro h0 fs
  induction fs generalizing h0 with
  | nil => simp [hash64_update]
  | cons f rest ih =>
      simp only [List.foldl_cons, List.flatten_cons, ih, hash64_update,
        List.foldl_append]

/-- C9 (amended): two processed lines are appended to the same
session-map entry exactly when their session ids coincide — the entry
keyed by a sid holds precisely the requests amended with that sid, in
call order — and the sid is the FNV-1a hash of the byte concatenation
of the session-contributing fields with no separator, so byte-equal
field values imply the same entry, while distinct field values with the
same concatenation (or a hash collision) also share an entry. -/
theorem C9_session_partitioning :
    (∀ (ops : List (Nat × Nat × Nat)) (sid : Nat),
        session_entry_requests (run_session_map ops) sid
          = (ops.filter (fun o => o.1 = sid)).map
              (fun o => session_request.mk o.2.2 o.2.1))
    ∧ ∀ fields : List (List Char),
        session_sid fields = hash64_update hash64_init fields.flatten := by
  constructor
  · intro ops sid
    have h := run_session_map_requests ops [] sid
    simpa [run_session_map, session_entry_requests] using h
  · exact session_sid_flatten

/-- Counterexample to C9 as stated: the field lists `["ab", "c"]` and
`["a", "bc"]` are not byte-equal, yet they produce the same sid (the
bytes are concatenated without separators before hashing), so the two
lines land in one shared session-map entry. -/
theorem C9_counterexample :
    session_sid ["ab".toList, "c".toList] = session_sid ["a".toList, "bc".toList]
    ∧ ["ab".toList, "c".toList] ≠ ["a".toList, "bc".toList]
    ∧ (run_session_map
        [(session_sid ["ab".toList, "c".toList], 1, 0),
         (session_sid ["a".toList, "bc".toList], 2, 1)]).length = 1
    ∧ session_entry_requests
        (run_session_map
          [(session_sid ["ab".toList, "c".toList], 1, 0),
           (session_sid ["a".toList, "bc".toList], 2, 1)])
        (session_sid ["ab".toList, "c".toList])
        = [⟨0, 1⟩, ⟨1, 2⟩] := by
  refine ⟨by decide, by decide, by decide, by decide⟩

/-! ### C8 — truncation idempotence -/

/-- C8 (amended): `truncate_raw_request` passes a string through
unchanged when no pattern matches it; hence applying the engine to its
own output yields the same string whenever no pattern matches that
output.  (Unconditional idempotence fails: a pattern can match the
substituted alias text, see the counterexample.) -/
theorem C8_truncate_idempotent_on_stable_output (tp : List trunc_pattern)
    (s : List Char)
    (h : truncate_find_first tp (truncate_raw_request tp s) = none) :
    truncate_raw_request tp (truncate_raw_request tp s)
      = truncate_raw_request tp s := by
  rw [truncate_raw_request, h]

/-- Witness for C8: with the single pattern `$B = b`, the output of
truncating `"b"` is `"$B"`, which no pattern matches, so a second
application is the identity. -/
theorem C8_truncate_idempotent_witness :
    truncate_find_first [⟨[.lit 'b'], "$B".toList⟩]
        (truncate_raw_request [⟨[.lit 'b'], "$B".toList⟩] "b".toList) = none
    ∧ truncate_raw_request [⟨[.lit 'b'], "$B".toList⟩]
        (truncate_raw_request [⟨[.lit 'b'], "$B".toList⟩] "b".toList)
      = truncate_raw_request [⟨[.lit 'b'], "$B".toList⟩] "b".toList :=
  ⟨by decide,
    C8_truncate_idempotent_on_stable_output [⟨[.lit 'b'], "$B".toList⟩]
      "b".toList (by decide)⟩

/-- Counterexample to C8 as stated: with the pattern file line
`$A = A`, truncating `"A"` yields `"$A"`, and truncating that output
again yields `"$$A"` — the pattern matches the alias text, so the
engine is not idempotent. -/
theorem C8_counterexample :
    truncate_raw_request [⟨[.lit 'A'], "$A".toList⟩] "A".toList = "$A".toList
    ∧ truncate_raw_request [⟨[.lit 'A'], "$A".toList⟩] "$A".toList
        = "$$A".toList
    ∧ truncate_raw_request [⟨[.lit 'A'], "$A".toList⟩]
        (truncate_raw_request [⟨[.lit 'A'], "$A".toList⟩] "A".toList)
      ≠ truncate_raw_request [⟨[.lit 'A'], "$A".toList⟩] "A".toList := by
  refine ⟨by decide, by decide, by decide⟩

/-! ### C5 — which patterns are applied -/

/-- The pattern-selection loop is `List.find?` on "this pattern
matches". -/
theorem truncate_find_first_eq_find? (tp : List trunc_pattern) (s : List Char) :
    truncate_find_first tp s
      = tp.find? (fun pa => (get_regex_matches pa.pat s).isSome) := by
  induction tp with
  | nil => rfl
  | cons pa rest ih =>
      by_cases h : (get_regex_matches pa.pat s).isSome
      · simp [truncate_find_first, h, List.find?_cons_of_pos]
      · simp only [truncate_find_first, if_neg h]
        rw [ih, List.find?_cons_of_neg _ (by simpa using h)]

/-- The substitution loop emits exactly prefix-plus-alias for each
non-overlapping leftmost match, and nothing else. -/
theorem subst_matches_eq_chunks (fuel : Nat) (p : List regex_atom)
    (al : List Char) : ∀ s : List Char,
    subst_matches fuel p al s
      = ((match_chunks fuel p s).map (fun pre => pre ++ al)).flatten := by
  induction fuel with
  | zero => intro s; rfl
  | succ f ih =>
      intro s
      rw [subst_matches, match_chunks]
      cases h : get_regex_matches p s with
      | none => rfl
      | some m =>
          cases m with
          | mk i j => simp [ih, List.append_assoc]

/-- C5 (amended): `truncate_raw_request` does *not* apply all patterns:
it applies only the first pattern (in declared order) whose regex
matches the raw string, replacing each of that pattern's
non-overlapping leftmost matches with its alias and discarding the text
after the last match; the remaining patterns are never consulted on the
substituted string, and when no pattern matches the input passes
through unchanged. -/
theorem C5_first_matching_pattern_only (tp : List trunc_pattern)
    (s : List Char) :
    truncate_raw_request tp s = first_pattern_only tp s := by
  rw [truncate_raw_request, first_pattern_only, truncate_find_first_eq_find?]
  cases h : tp.find? (fun pa => (get_regex_matches pa.pat s).isSome) with
  | none => rfl
  | some pa => exact subst_matches_eq_chunks (s.length + 1) pa.pat pa.al s

/-- Counterexample to C5 as stated: with patterns `$A = a` then
`$B = b` and input `"ab"`, the code substitutes only pattern `$A`
(yielding `"$A"`, the tail `"b"` is dropped), whereas applying all
patterns in order as the spec prescribes would yield `"$A$B"`. -/
theorem C5_counterexample :
    truncate_raw_request
        [⟨[.lit 'a'], "$A".toList⟩, ⟨[.lit 'b'], "$B".toList⟩] "ab".toList
      = "$A".toList
    ∧ spec_truncate
        [⟨[.lit 'a'], "$A".toList⟩, ⟨[.lit 'b'], "$B".toList⟩] "ab".toList
      = "$A$B".toList
    ∧ truncate_raw_request
        [⟨[.lit 'a'], "$A".toList⟩, ⟨[.lit 'b'], "$B".toList⟩] "ab".toList
      ≠ spec_truncate
          [⟨[.lit 'a'], "$A".toList⟩, ⟨[.lit 'b'], "$B".toList⟩] "ab".toList := by
  refine ⟨by decide, by decide, by decide⟩

/-! ### C6 — the `$ID = /u/[0-9]+` scenario -/

/-- C6 (amended): with the single truncation pattern `$ID = /u/[0-9]+`,
the raw requests `GET /u/1` and `GET /u/42` both truncate to the same
canonical string — which is `GET $ID` (the alias replaces the whole
match, including `/u/`) — so both lines intern to the single RequestId
`0`, and the resulting path graph (one single-request session per line)
has exactly one vertex, with `total_nhits_in = 2` and no edges. -/
theorem C6_truncation_collapse :
    truncate_raw_request tp_ID "GET /u/1".toList = "GET $ID".toList
    ∧ truncate_raw_request tp_ID "GET /u/42".toList = "GET $ID".toList
    ∧ request_ids
        [truncate_raw_request tp_ID "GET /u/1".toList,
         truncate_raw_request tp_ID "GET /u/42".toList] = [0, 0]
    ∧ (gen_path_graph_core 1 [[⟨0, 0⟩], [⟨0, 1000⟩]]).nvertices = 1
    ∧ ((gen_path_graph_core 1 [[⟨0, 0⟩], [⟨0, 1000⟩]]).vertices.getD 0
        NULL_VERTEX).total_nhits_in = 2
    ∧ ((gen_path_graph_core 1 [[⟨0, 0⟩], [⟨0, 1000⟩]]).vertices.getD 0
        NULL_VERTEX).edges = [] := by
  refine ⟨by decide, by decide, by decide, by decide, by decide, by decide⟩

/-- Counterexample to C6 as stated: the canonical string is not
`GET /u/$ID`; the alias replaces the entire regex match, so it is
`GET $ID`. -/
theorem C6_counterexample :
    truncate_raw_request tp_ID "GET /u/1".toList ≠ "GET /u/$ID".toList
    ∧ truncate_raw_request tp_ID "GET /u/1".toList = "GET $ID".toList := by
  refine ⟨by decide, by decide⟩

/-! ### C2 — per-session sort -/

/-- C2 (amended): any outcome admitted by the `qsort` postcondition for
`cmp_session_request` is a permutation of the session entry's request
list arranged in ascending timestamp order; `qsort` does not constrain
the relative order of elements with equal timestamps, so stability is
not guaranteed. -/
theorem C2_session_sort_ascending (l l2 : List session_request)
    (h : qsort_post cmp_session_request l l2) :
    l2.Perm l ∧ List.Pairwise (fun a b => a.ts ≤ b.ts) l2 := by
  refine ⟨h.1, List.Pairwise.imp ?_ h.2⟩
  intro a b hab
  by_cases he : a.ts = b.ts
  · exact Nat.le_of_eq he
  · by_cases hg : a.ts > b.ts
    · exfalso
      simp [cmp_session_request, he, hg] at hab
    · omega

/-- Witness for C2 on a concrete unsorted list. -/
theorem C2_session_sort_ascending_witness :
    qsort_post cmp_session_request
        [⟨0, 7⟩, ⟨1, 3⟩] [⟨1, 3⟩, ⟨0, 7⟩]
    ∧ (List.Perm [⟨1, 3⟩, ⟨0, 7⟩] [(⟨0, 7⟩ : session_request), ⟨1, 3⟩]
        ∧ List.Pairwise (fun a b => a.ts ≤ b.ts)
            [(⟨1, 3⟩ : session_request), ⟨0, 7⟩]) :=
  ⟨by decide, C2_session_sort_ascending [⟨0, 7⟩, ⟨1, 3⟩] [⟨1, 3⟩, ⟨0, 7⟩]
    (by decide)⟩

/-- Counterexample to C2 as stated: for the request list
`[(rid 0, ts 5), (rid 1, ts 5)]` the reversed arrangement satisfies
the `qsort` postcondition (the comparator returns `0` on equal
timestamps), yet it differs from the stable order the claim demands,
in which equal timestamps keep their insertion order. -/
theorem C2_counterexample :
    qsort_post cmp_session_request
        [⟨0, 5⟩, ⟨1, 5⟩] [⟨1, 5⟩, ⟨0, 5⟩]
    ∧ stable_sort_by_ts [⟨0, 5⟩, ⟨1, 5⟩] = [⟨0, 5⟩, ⟨1, 5⟩]
    ∧ ([⟨1, 5⟩, ⟨0, 5⟩] : List session_request)
        ≠ stable_sort_by_ts [⟨0, 5⟩, ⟨1, 5⟩] := by
  refine ⟨by decide, by decide, by decide⟩

/-! ### C7 — vertex ordering -/

/-- C7 (amended): after the final `qsort`, the sorted range
`pg->vertices[0..nvertices)` is a permutation of the pre-sort range
arranged by `min_depth` ascending and, within equal `min_depth`, by
`total_nhits_in + total_nhits_out` descending; `qsort` does not
constrain the relative order of fully tied vertices, so neither
stability nor a RequestId tiebreak is guaranteed. -/
theorem C7_vertex_order (cap : Nat) (ss : List (List session_request))
    (vs2 : List path_graph_vertex)
    (h : qsort_post cmp_path_graph_vertex_by_hits
        ((gen_path_graph_core cap ss).vertices.take
          (gen_path_graph_core cap ss).nvertices) vs2) :
    vs2.Perm ((gen_path_graph_core cap ss).vertices.take
        (gen_path_graph_core cap ss).nvertices)
    ∧ List.Pairwise (fun a b => a.min_depth < b.min_depth ∨
        (a.min_depth = b.min_depth ∧ vertex_score b ≤ vertex_score a)) vs2 := by
  refine ⟨h.1, List.Pairwise.imp ?_ h.2⟩
  intro a b hab
  unfold cmp_path_graph_vertex_by_hits at hab
  by_cases h1 : a.min_depth < b.min_depth
  · exact Or.inl h1
  · rw [if_neg h1] at hab
    by_cases h2 : a.min_depth > b.min_depth
    · rw [if_pos h2] at hab
      omega
    · rw [if_neg h2] at hab
      have hd : a.min_depth = b.min_depth := by omega
      by_cases h3 : vertex_score a = vertex_score b
      · exact Or.inr ⟨hd, Nat.le_of_eq h3.symm⟩
      · rw [if_neg h3] at hab
        by_cases h4 : vertex_score a < vertex_score b
        · rw [if_pos h4] at hab
          omega
        · exact Or.inr ⟨hd, by omega⟩

/-- Witness for C7: two single-request sessions, identity arrangement. -/
theorem C7_vertex_order_witness :
    qsort_post cmp_path_graph_vertex_by_hits
        ((gen_path_graph_core 2 [[⟨0, 0⟩], [⟨1, 5⟩]]).vertices.take
          (gen_path_graph_core 2 [[⟨0, 0⟩], [⟨1, 5⟩]]).nvertices)
        ((gen_path_graph_core 2 [[⟨0, 0⟩], [⟨1, 5⟩]]).vertices.take
          (gen_path_graph_core 2 [[⟨0, 0⟩], [⟨1, 5⟩]]).nvertices)
    ∧ (((gen_path_graph_core 2 [[⟨0, 0⟩], [⟨1, 5⟩]]).vertices.take
          (gen_path_graph_core 2 [[⟨0, 0⟩], [⟨1, 5⟩]]).nvertices).Perm
        ((gen_path_graph_core 2 [[⟨0, 0⟩], [⟨1, 5⟩]]).vertices.take
          (gen_path_graph_core 2 [[⟨0, 0⟩], [⟨1, 5⟩]]).nvertices)
      ∧ List.Pairwise (fun a b => a.min_depth < b.min_depth ∨
          (a.min_depth = b.min_depth ∧ vertex_score b ≤ vertex_score a))
          ((gen_path_graph_core 2 [[⟨0, 0⟩], [⟨1, 5⟩]]).vertices.take
            (gen_path_graph_core 2 [[⟨0, 0⟩], [⟨1, 5⟩]]).nvertices)) :=
  ⟨by decide, C7_vertex_order 2 [[⟨0, 0⟩], [⟨1, 5⟩]] _ (by decide)⟩

/-- Counterexample to C7 as stated: two fully tied vertices (equal
`min_depth`, equal hit totals).  The arrangement with rid `1` before
rid `0` satisfies the `qsort` postcondition, yet it violates the
claimed stable RequestId tiebreak. -/
theorem C7_counterexample :
    qsort_post cmp_path_graph_vertex_by_hits
        ((gen_path_graph_core 2 [[⟨0, 0⟩], [⟨1, 5⟩]]).vertices.take
          (gen_path_graph_core 2 [[⟨0, 0⟩], [⟨1, 5⟩]]).nvertices)
        [(gen_path_graph_core 2 [[⟨0, 0⟩], [⟨1, 5⟩]]).vertices.getD 1
            NULL_VERTEX,
         (gen_path_graph_core 2 [[⟨0, 0⟩], [⟨1, 5⟩]]).vertices.getD 0
            NULL_VERTEX]
    ∧ ¬ List.Pairwise claimed_vertex_le
        [(gen_path_graph_core 2 [[⟨0, 0⟩], [⟨1, 5⟩]]).vertices.getD 1
            NULL_VERTEX,
         (gen_path_graph_core 2 [[⟨0, 0⟩], [⟨1, 5⟩]]).vertices.getD 0
            NULL_VERTEX] := by
  refine ⟨by decide, by decide⟩

/-! ### C1 — request interning -/

/-- The initial request set satisfies the interning invariant. -/
theorem rs_inv_init : rs_inv init_request_set := by
  constructor <;> simp [init_request_set, rs_inv]

/-- One `add_request_set_entry` call only ever appends entries. -/
theorem add_entries_append (rs : request_set) (c : List Char) :
    ∃ tail, (add_request_set_entry rs c).1.entries = rs.entries ++ tail := by
  unfold add_request_set_entry
  cases hf : request_set_find rs (request_bucket c) c with
  | some e => exact ⟨[], by simp⟩
  | none => exact ⟨_, rfl⟩

/-- `add_request_set_entry` preserves the interning invariant. -/
theorem rs_inv_add (rs : request_set) (c : List Char) (h : rs_inv rs) :
    rs_inv (add_request_set_entry rs c).1 := by
  obtain ⟨h1, h2⟩ := h
  unfold add_request_set_entry
  cases hf : request_set_find rs (request_bucket c) c with
  | some e => exact ⟨h1, h2⟩
  | none =>
      constructor
      · intro e he
        rcases List.mem_append.mp he with he | he
        · obtain ⟨hb, hr⟩ := h1 e he
          exact ⟨hb, Nat.lt_succ_of_lt hr⟩
        · simp only [List.mem_singleton] at he
          subst he
          exact ⟨rfl, Nat.lt_succ_self _⟩
      · rw [List.pairwise_append]
        refine ⟨h2, by simp, ?_⟩
        intro a ha b hb
        simp only [List.mem_singleton] at hb
        subst hb
        have hnot : ¬(a.bucket = request_bucket c ∧ a.data = c) := by
          have := List.find?_eq_none.mp hf a ha
          simpa using this
        constructor
        · intro hd
          exact hnot ⟨(h1 a ha).1.trans (by rw [hd]), hd⟩
        · show a.rid ≠ rs.rid_ctr
          have := (h1 a ha).2
          omega

/-- After interning `c`, looking `c` up yields exactly the returned id. -/
theorem lookup_rid_add_self (rs : request_set) (c : List Char) :
    lookup_rid (add_request_set_entry rs c).1 c
      = some (add_request_set_entry rs c).2 := by
  unfold lookup_rid add_request_set_entry
  cases hf : request_set_find rs (request_bucket c) c with
  | some e => simp [hf]
  | none =>
      simp only
      unfold request_set_find at hf ⊢
      rw [List.find?_append, hf]
      simp

/-- An interned id survives any further `add_request_set_entry` call. -/
theorem lookup_rid_add_stable (rs : request_set) (c c2 : List Char) (r : Nat)
    (h : lookup_rid rs c = some r) :
    lookup_rid (add_request_set_entry rs c2).1 c = some r := by
  unfold add_request_set_entry
  cases hf : request_set_find rs (request_bucket c2) c2 with
  | some e => exact h
  | none =>
      unfold lookup_rid request_set_find at h ⊢
      simp only
      rw [List.find?_append]
      obtain ⟨e0, he0, hr0⟩ : ∃ e0,
          rs.entries.find?
            (fun e => decide (e.bucket = request_bucket c ∧ e.data = c)) = some e0
          ∧ e0.rid = r := by
        cases hfind : rs.entries.find?
            (fun e => decide (e.bucket = request_bucket c ∧ e.data = c)) with
        | none => rw [hfind] at h; simp at h
        | some e0 => rw [hfind] at h; simp at h; exact ⟨e0, rfl, h⟩
      rw [he0]
      simpa using hr0

/-- The run preserves the interning invariant. -/
theorem rs_inv_run (ops : List (List Char)) :
    ∀ rs, rs_inv rs → rs_inv (run_request_set rs ops).1 := by
  induction ops with
  | nil => intro rs h; exact h
  | cons c cs ih =>
      intro rs h
      exact ih _ (rs_inv_add rs c h)

/-- An interned id survives a whole run of further calls. -/
theorem lookup_rid_run_stable (ops : List (List Char)) :
    ∀ rs (c : List Char) (r : Nat), lookup_rid rs c = some r →
      lookup_rid (run_request_set rs ops).1 c = some r := by
  induction ops with
  | nil => intro rs c r h; exact h
  | cons c2 cs ih =>
      intro rs c r h
      exact ih _ c r (lookup_rid_add_stable rs c c2 r h)

/-- The run only ever appends entries. -/
theorem run_entries_append (ops : List (List Char)) :
    ∀ rs, ∃ tail, (run_request_set rs ops).1.entries = rs.entries ++ tail := by
  induction ops with
  | nil => intro rs; exact ⟨[], by simp [run_request_set]⟩
  | cons c cs ih =>
      intro rs
      obtain ⟨t1, h1⟩ := add_entries_append rs c
      obtain ⟨t2, h2⟩ := ih (add_request_set_entry rs c).1
      exact ⟨t1 ++ t2, by rw [run_request_set, h2, h1, List.append_assoc]⟩

/-- Running `ops ++ more` first runs `ops`, then `more`. -/
theorem run_request_set_append (ops more : List (List Char)) :
    ∀ rs, (run_request_set rs (ops ++ more)).1
      = (run_request_set (run_request_set rs ops).1 more).1 := by
  induction ops with
  | nil => intro rs; rfl
  | cons c cs ih =>
      intro rs
      rw [List.cons_append, run_request_set, run_request_set]
      exact ih _

/-- Every call's returned id is the id interned for its canonical
string in the final state. -/
theorem run_results_lookup (ops : List (List Char)) :
    ∀ rs, rs_inv rs → ∀ i, i < ops.length →
      lookup_rid (run_request_set rs ops).1 (ops.getD i [])
        = some ((run_request_set rs ops).2.getD i 0) := by
  induction ops with
  | nil => intro rs _ i hi; simp at hi
  | cons c cs ih =>
      intro rs h i hi
      cases i with
      | zero =>
          rw [run_request_set]
          simp only [List.getD_cons_zero]
          exact lookup_rid_run_stable cs _ c _ (lookup_rid_add_self rs c)
      | succ i0 =>
          rw [run_request_set]
          simp only [List.getD_cons_succ]
          exact ih _ (rs_inv_add rs c h) i0 (by simpa using hi)

/-- Under the invariant, the interned id determines the canonical
string: two strings looked up to the same id are equal. -/
theorem lookup_rid_inj (rs : request_set) (h : rs_inv rs)
    (c1 c2 : List Char) (r : Nat)
    (h1 : lookup_rid rs c1 = some r) (h2 : lookup_rid rs c2 = some r) :
    c1 = c2 := by
  unfold lookup_rid request_set_find at h1 h2
  obtain ⟨e1, he1, hr1⟩ : ∃ e1,
      rs.entries.find?
        (fun e => decide (e.bucket = request_bucket c1 ∧ e.data = c1)) = some e1
      ∧ e1.rid = r := by
    cases hf : rs.entries.find?
        (fun e => decide (e.bucket = request_bucket c1 ∧ e.data = c1)) with
    | none => rw [hf] at h1; simp at h1
    | some e1 => rw [hf] at h1; simp at h1; exact ⟨e1, rfl, h1⟩
  obtain ⟨e2, he2, hr2⟩ : ∃ e2,
      rs.entries.find?
        (fun e => decide (e.bucket = request_bucket c2 ∧ e.data = c2)) = some e2
      ∧ e2.rid = r := by
    cases hf : rs.entries.find?
        (fun e => decide (e.bucket = request_bucket c2 ∧ e.data = c2)) with
    | none => rw [hf] at h2; simp at h2
    | some e2 => rw [hf] at h2; simp at h2; exact ⟨e2, rfl, h2⟩
  have hd1 : e1.data = c1 := by
    have := List.find?_some he1
    simp at this
    exact this.2
  have hd2 : e2.data = c2 := by
    have := List.find?_some he2
    simp at this
    exact this.2
  have hm1 := List.mem_of_find?_eq_some he1
  have hm2 := List.mem_of_find?_eq_some he2
  by_cases heq : e1 = e2
  · rw [← hd1, ← hd2, heq]
  · exfalso
    have hsym : Symmetric
        (fun e1 e2 : request_set_entry => e1.data ≠ e2.data ∧ e1.rid ≠ e2.rid) := by
      intro a b hab
      exact ⟨fun hx => hab.1 hx.symm, fun hx => hab.2 hx.symm⟩
    have := (h.2.forall hsym) hm1 hm2 heq
    exact this.2 (hr1.trans hr2.symm)

/-- C1: over any sequence of `add_request_set_entry` calls on an
initialized request set, two calls return the same `RequestId` exactly
when their canonical (post-truncation) request strings are byte-equal
(so equal strings share one id and distinct strings get distinct ids),
and the set is append-only: every existing entry — its canonical string
and its `RequestId` — is preserved unchanged by all later calls. -/
theorem C1_request_interning (ops : List (List Char)) (i j : Nat)
    (hi : i < ops.length) (hj : j < ops.length) (more : List (List Char)) :
    ((request_ids ops).getD i 0 = (request_ids ops).getD j 0
       ↔ ops.getD i [] = ops.getD j [])
    ∧ ∃ tail, (run_request_set init_request_set (ops ++ more)).1.entries
        = (run_request_set init_request_set ops).1.entries ++ tail := by
  constructor
  · have li := run_results_lookup ops init_request_set rs_inv_init i hi
    have lj := run_results_lookup ops init_request_set rs_inv_init j hj
    unfold request_ids
    constructor
    · intro hr
      refine lookup_rid_inj (run_request_set init_request_set ops).1
        (rs_inv_run ops init_request_set rs_inv_init) _ _
        ((run_request_set init_request_set ops).2.getD i 0) li ?_
      rw [hr]
      exact lj
    · intro hc
      rw [hc] at li
      have := li.symm.trans lj
      simpa using this
  · rw [run_request_set_append]
    exact run_entries_append more _

/-- Witness for C1 on the concrete call sequence
`["GET /a", "GET /b", "GET /a"]` followed by one further call. -/
theorem C1_request_interning_witness :
    (0 : Nat) < 3 ∧ (2 : Nat) < 3 ∧
      (((request_ids ["GET /a".toList, "GET /b".toList, "GET /a".toList]).getD 0 0
          = (request_ids
              ["GET /a".toList, "GET /b".toList, "GET /a".toList]).getD 2 0
        ↔ (["GET /a".toList, "GET /b".toList, "GET /a".toList]).getD 0 []
          = (["GET /a".toList, "GET /b".toList, "GET /a".toList]).getD 2 [])
      ∧ ∃ tail, (run_request_set init_request_set
            (["GET /a".toList, "GET /b".toList, "GET /a".toList]
              ++ ["GET /c".toList])).1.entries
          = (run_request_set init_request_set
              ["GET /a".toList, "GET /b".toList, "GET /a".toList]).1.entries
            ++ tail) :=
  ⟨by decide, by decide,
    C1_request_interning
      ["GET /a".toList, "GET /b".toList, "GET /a".toList] 0 2
      (by decide) (by decide) ["GET /c".toList]⟩

/-! ### C4 — hit totals -/

/-- A successful edge bump raises the edge-hit sum by exactly one. -/
theorem bump_edge_sum (er : Nat) (dur : ℚ) :
    ∀ (es es2 : List path_graph_edge), bump_edge es er dur = some es2 →
      (es2.map path_graph_edge.nhits).sum
        = (es.map path_graph_edge.nhits).sum + 1 := by
  intro es
  induction es with
  | nil => intro es2 h; simp [bump_edge] at h
  | cons e rest ih =>
      intro es2 h
      rw [bump_edge] at h
      by_cases he : e.rid = er
      · rw [if_pos he] at h
        cases h
        simp
        omega
      · rw [if_neg he] at h
        cases hr : bump_edge rest er dur with
        | none => rw [hr] at h; simp at h
        | some rest2 =>
            rw [hr] at h
            simp at h
            subst h
            simp [ih rest2 hr]
            omega

/-- The null vertex satisfies the hit-totals invariant. -/
theorem vertex_hits_inv_null : vertex_hits_inv NULL_VERTEX := by
  constructor <;> simp [NULL_VERTEX]

/-- The vertex read by `amend_path_graph_vertex` satisfies the
invariant whenever all stored vertices do. -/
theorem getD_hits_inv (pg : path_graph) (rid : Nat)
    (h : ∀ v ∈ pg.vertices, vertex_hits_inv v) :
    vertex_hits_inv (pg.vertices.getD rid NULL_VERTEX) := by
  rcases Nat.lt_or_ge rid pg.vertices.length with hlt | hge
  · rw [List.getD_eq_getElem?_getD, List.getElem?_eq_getElem hlt]
    exact h _ (List.getElem_mem hlt)
  · rw [List.getD_eq_getElem?_getD, List.getElem?_eq_none hge]
    exact vertex_hits_inv_null

/-- Each `amend_path_graph_vertex` call preserves the hit-totals
invariant for every stored vertex. -/
theorem amend_hits_inv (pg : path_graph) (depth rid er ts ets : Nat)
    (h : ∀ v ∈ pg.vertices, vertex_hits_inv v) :
    ∀ v ∈ (amend_path_graph_vertex pg depth rid er ts ets).vertices,
      vertex_hits_inv v := by
  intro v hv
  have hv0 := getD_hits_inv pg rid h
  by_cases h1 : (pg.vertices.getD rid NULL_VERTEX).rid = REQUEST_ID_INVAL
  · by_cases h2 : er ≠ REQUEST_ID_INVAL
    · simp only [amend_path_graph_vertex, if_pos h1, if_pos h2] at hv
      rcases List.mem_or_eq_of_mem_set hv with hv | rfl
      · exact h v hv
      · constructor <;> simp [vertex_hits_inv]
    · simp only [amend_path_graph_vertex, if_pos h1, if_neg h2] at hv
      rcases List.mem_or_eq_of_mem_set hv with hv | rfl
      · exact h v hv
      · constructor <;> simp [vertex_hits_inv]
  · by_cases h2 : er = REQUEST_ID_INVAL
    · simp only [amend_path_graph_vertex, if_neg h1, if_pos h2] at hv
      rcases List.mem_or_eq_of_mem_set hv with hv | rfl
      · exact h v hv
      · refine ⟨?_, ?_⟩
        · show (pg.vertices.getD rid NULL_VERTEX).total_nhits_out
            = (List.map path_graph_edge.nhits
                (pg.vertices.getD rid NULL_VERTEX).edges).sum
          exact hv0.1
        · show (pg.vertices.getD rid NULL_VERTEX).total_nhits_out
            ≤ (pg.vertices.getD rid NULL_VERTEX).total_nhits_in + 1
          have := hv0.2
          omega
    · rcases hbe : bump_edge (pg.vertices.getD rid NULL_VERTEX).edges er
          (((ets : ℚ)) - ((ts : ℚ))) with _ | es2
      · simp only [amend_path_graph_vertex, if_neg h1, if_neg h2, hbe] at hv
        rcases List.mem_or_eq_of_mem_set hv with hv | rfl
        · exact h v hv
        · refine ⟨?_, ?_⟩
          · show (pg.vertices.getD rid NULL_VERTEX).total_nhits_out + 1
              = (List.map path_graph_edge.nhits
                  ((pg.vertices.getD rid NULL_VERTEX).edges
                    ++ [⟨er, 1, ((ets : ℚ)) - ((ts : ℚ))⟩])).sum
            rw [List.map_append, List.sum_append]
            simp only [List.map_cons, List.map_nil, List.sum_cons,
              List.sum_nil]
            have := hv0.1
            omega
          · show (pg.vertices.getD rid NULL_VERTEX).total_nhits_out + 1
              ≤ (pg.vertices.getD rid NULL_VERTEX).total_nhits_in + 1
            have := hv0.2
            omega
      · simp only [amend_path_graph_vertex, if_neg h1, if_neg h2, hbe] at hv
        rcases List.mem_or_eq_of_mem_set hv with hv | rfl
        · exact h v hv
        · have hs := bump_edge_sum er (((ets : ℚ)) - ((ts : ℚ))) _ es2 hbe
          refine ⟨?_, ?_⟩
          · show (pg.vertices.getD rid NULL_VERTEX).total_nhits_out + 1
              = (List.map path_graph_edge.nhits es2).sum
            have := hv0.1
            omega
          · show (pg.vertices.getD rid NULL_VERTEX).total_nhits_out + 1
              ≤ (pg.vertices.getD rid NULL_VERTEX).total_nhits_in + 1
            have := hv0.2
            omega

/-- The session walk preserves the hit-totals invariant. -/
theorem gen_session_edges_hits_inv :
    ∀ (l : List session_request) (pg : path_graph) (d : Nat),
      (∀ v ∈ pg.vertices, vertex_hits_inv v) →
      ∀ v ∈ (gen_session_edges pg d l).vertices, vertex_hits_inv v := by
  intro l
  induction l with
  | nil => intro pg d h; exact h
  | cons x rest ih =>
      intro pg d h
      exact ih _ _ (amend_hits_inv pg d x.rid (next_rid rest) x.ts
        (next_ts rest) h)

/-- All vertices of the generated core graph satisfy the hit-totals
invariant. -/
theorem gen_core_hits_inv (cap : Nat) (ss : List (List session_request)) :
    ∀ v ∈ (gen_path_graph_core cap ss).vertices, vertex_hits_inv v := by
  suffices hgen : ∀ (ss2 : List (List session_request)) (pg : path_graph),
      (∀ v ∈ pg.vertices, vertex_hits_inv v) →
      ∀ v ∈ (ss2.foldl (fun pg s => gen_session_edges pg 1 s) pg).vertices,
        vertex_hits_inv v by
    refine hgen ss (init_path_graph cap) ?_
    intro v hv
    rw [init_path_graph] at hv
    simp only [List.eq_of_mem_replicate hv]
    exact vertex_hits_inv_null
  intro ss2
  induction ss2 with
  | nil => intro pg h; exact h
  | cons s rest ih =>
      intro pg h
      exact ih _ (gen_session_edges_hits_inv s pg 1 h)

/-- C4: after every `amend_path_graph_vertex` call — and therefore for
every vertex of the graph `gen_path_graph` produces, in whatever order
the final sort leaves them — each non-null vertex's `total_nhits_out`
equals the sum of its edges' hit counts, and `total_nhits_in` is at
least `total_nhits_out`. -/
theorem C4_hits_totals :
    (∀ (pg : path_graph) (depth rid er ts ets : Nat),
        (∀ v ∈ pg.vertices, vertex_hits_inv v) →
        ∀ v ∈ (amend_path_graph_vertex pg depth rid er ts ets).vertices,
          vertex_hits_inv v)
    ∧ ∀ (cap : Nat) (ss : List (List session_request))
        (vs : List path_graph_vertex),
        vs.Perm (gen_path_graph_core cap ss).vertices →
        ∀ v ∈ vs, v.rid ≠ REQUEST_ID_INVAL → vertex_hits_inv v := by
  refine ⟨amend_hits_inv, ?_⟩
  intro cap ss vs hperm v hv _
  exact gen_core_hits_inv cap ss v (hperm.mem_iff.mp hv)

/-- Witness for C4: one amend call on an initialized graph, and the
graph generated from a single session with a repeated request. -/
theorem C4_hits_totals_witness :
    ((∀ v ∈ (init_path_graph 1).vertices, vertex_hits_inv v)
      ∧ ∀ v ∈ (amend_path_graph_vertex (init_path_graph 1) 1 0
            REQUEST_ID_INVAL 0 0).vertices, vertex_hits_inv v)
    ∧ ((gen_path_graph_core 1 [[⟨0, 0⟩, ⟨0, 5⟩]]).vertices.Perm
          (gen_path_graph_core 1 [[⟨0, 0⟩, ⟨0, 5⟩]]).vertices
      ∧ ∀ v ∈ (gen_path_graph_core 1 [[⟨0, 0⟩, ⟨0, 5⟩]]).vertices,
          v.rid ≠ REQUEST_ID_INVAL → vertex_hits_inv v) :=
  ⟨⟨by decide, C4_hits_totals.1 (init_path_graph 1) 1 0 REQUEST_ID_INVAL 0 0
      (by decide)⟩,
    ⟨List.Perm.refl _,
      C4_hits_totals.2 1 [[⟨0, 0⟩, ⟨0, 5⟩]] _ (List.Perm.refl _)⟩⟩

/-! ### C3 — minimum depth -/

/-- `amend_path_graph_vertex` never changes the vertex-array length. -/
theorem amend_vertices_length (pg : path_graph) (depth rid er ts ets : Nat) :
    (amend_path_graph_vertex pg depth rid er ts ets).vertices.length
      = pg.vertices.length := by
  by_cases h1 : (pg.vertices.getD rid NULL_VERTEX).rid = REQUEST_ID_INVAL
  · by_cases h2 : er ≠ REQUEST_ID_INVAL
    · simp only [amend_path_graph_vertex, if_pos h1, if_pos h2]
      exact List.length_set pg.vertices rid _
    · simp only [amend_path_graph_vertex, if_pos h1, if_neg h2]
      exact List.length_set pg.vertices rid _
  · by_cases h2 : er = REQUEST_ID_INVAL
    · simp only [amend_path_graph_vertex, if_neg h1, if_pos h2]
      exact List.length_set pg.vertices rid _
    · rcases hbe : bump_edge (pg.vertices.getD rid NULL_VERTEX).edges er
          (((ets : ℚ)) - ((ts : ℚ))) with _ | es2
      · simp only [amend_path_graph_vertex, if_neg h1, if_neg h2, hbe]
        exact List.length_set pg.vertices rid _
      · simp only [amend_path_graph_vertex, if_neg h1, if_neg h2, hbe]
        exact List.length_set pg.vertices rid _

/-- Effect of one `amend_path_graph_vertex` call on the recorded
minimum depth of every cell: the amended rid folds `depth` into its
running minimum (`MIN(depth, min_depth)`, or `depth` on creation), all
other cells are untouched. -/
theorem amend_vertex_depth (pg : path_graph) (depth rid er ts ets q : Nat)
    (hrid : rid < pg.vertices.length) (hr : rid ≠ REQUEST_ID_INVAL) :
    vertex_depth (amend_path_graph_vertex pg depth rid er ts ets) q
      = if q = rid then merge_min (vertex_depth pg rid) depth
        else vertex_depth pg q := by
  have hset : ∀ v' : path_graph_vertex,
      (pg.vertices.set rid v').getD rid NULL_VERTEX = v' := by
    intro v'
    rw [List.getD_eq_getElem?_getD, List.getElem?_set_self hrid]
    rfl
  have hset_ne : ∀ (v' : path_graph_vertex) (q2 : Nat), q2 ≠ rid →
      (pg.vertices.set rid v').getD q2 NULL_VERTEX
        = pg.vertices.getD q2 NULL_VERTEX := by
    intro v' q2 hne
    rw [List.getD_eq_getElem?_getD,
      List.getElem?_set_ne (fun h => hne h.symm),
      ← List.getD_eq_getElem?_getD]
  by_cases hq : q = rid
  · subst hq
    rw [if_pos rfl]
    by_cases h1 : (pg.vertices.getD q NULL_VERTEX).rid = REQUEST_ID_INVAL
    · have hpgq : vertex_depth pg q = none := by
        simp only [vertex_depth]
        rw [if_pos h1]
      rw [hpgq]
      by_cases h2 : er ≠ REQUEST_ID_INVAL
      · simp only [amend_path_graph_vertex, if_pos h1, if_pos h2,
          vertex_depth]
        rw [hset]
        simp [hr, merge_min]
      · simp only [amend_path_graph_vertex, if_pos h1, if_neg h2,
          vertex_depth]
        rw [hset]
        simp [hr, merge_min]
    · have hpgq : vertex_depth pg q
          = some (pg.vertices.getD q NULL_VERTEX).min_depth := by
        simp only [vertex_depth]
        rw [if_neg h1]
      have h1g : ¬(pg.vertices[q]?.getD NULL_VERTEX).rid = REQUEST_ID_INVAL := by
        rw [← List.getD_eq_getElem?_getD]
        exact h1
      rw [hpgq]
      by_cases h2 : er = REQUEST_ID_INVAL
      · simp only [amend_path_graph_vertex, if_neg h1, if_pos h2,
          vertex_depth]
        rw [hset]
        simp [h1g, merge_min, Nat.min_comm]
      · rcases hbe : bump_edge (pg.vertices.getD q NULL_VERTEX).edges er
            (((ets : ℚ)) - ((ts : ℚ))) with _ | es2
        · simp only [amend_path_graph_vertex, if_neg h1, if_neg h2, hbe,
            vertex_depth]
          rw [hset]
          simp [h1g, merge_min, Nat.min_comm]
        · simp only [amend_path_graph_vertex, if_neg h1, if_neg h2, hbe,
            vertex_depth]
          rw [hset]
          simp [h1g, merge_min, Nat.min_comm]
  · rw [if_neg hq]
    by_cases h1 : (pg.vertices.getD rid NULL_VERTEX).rid = REQUEST_ID_INVAL
    · by_cases h2 : er ≠ REQUEST_ID_INVAL
      · simp only [amend_path_graph_vertex, if_pos h1, if_pos h2,
          vertex_depth]
        rw [hset_ne _ q hq]
      · simp only [amend_path_graph_vertex, if_pos h1, if_neg h2,
          vertex_depth]
        rw [hset_ne _ q hq]
    · by_cases h2 : er = REQUEST_ID_INVAL
      · simp only [amend_path_graph_vertex, if_neg h1, if_pos h2,
          vertex_depth]
        rw [hset_ne _ q hq]
      · rcases hbe : bump_edge (pg.vertices.getD rid NULL_VERTEX).edges er
            (((ets : ℚ)) - ((ts : ℚ))) with _ | es2
        · simp only [amend_path_graph_vertex, if_neg h1, if_neg h2, hbe,
            vertex_depth]
          rw [hset_ne _ q hq]
        · simp only [amend_path_graph_vertex, if_neg h1, if_neg h2, hbe,
            vertex_depth]
          rw [hset_ne _ q hq]

/-- The session walk never changes the vertex-array length. -/
theorem gen_session_edges_length :
    ∀ (l : List session_request) (pg : path_graph) (d : Nat),
      (gen_session_edges pg d l).vertices.length = pg.vertices.length := by
  intro l
  induction l with
  | nil => intro pg d; rfl
  | cons x rest ih =>
      intro pg d
      rw [gen_session_edges, ih, amend_vertices_length]

/-- Walking one session folds each occurrence's depth into the
per-rid minimum. -/
theorem gen_session_edges_depth :
    ∀ (l : List session_request) (pg : path_graph) (d q : Nat),
      (∀ x ∈ l, x.rid < pg.vertices.length) →
      pg.vertices.length ≤ REQUEST_ID_INVAL →
      vertex_depth (gen_session_edges pg d l) q
        = mins_from (vertex_depth pg q) (occ_depths d l q) := by
  intro l
  induction l with
  | nil => intro pg d q _ _; rfl
  | cons x rest ih =>
      intro pg d q hb hlen
      rw [gen_session_edges, occ_depths]
      have hx : x.rid < pg.vertices.length := hb x (List.mem_cons_self x rest)
      have hxr : x.rid ≠ REQUEST_ID_INVAL := by omega
      rw [ih (amend_path_graph_vertex pg d x.rid (next_rid rest) x.ts
            (next_ts rest))
          (if x.rid = next_rid rest then d else d + 1) q
          (fun x2 hx2 => by
            rw [amend_vertices_length]
            exact hb x2 (List.mem_cons_of_mem x hx2))
          (by rw [amend_vertices_length]; exact hlen)]
      rw [amend_vertex_depth pg d x.rid (next_rid rest) x.ts (next_ts rest) q
          hx hxr]
      by_cases hxq : x.rid = q
      · subst hxq
        rw [if_pos rfl]
        simp [mins_from]
      · rw [if_neg (fun h => hxq h.symm)]
        simp [hxq]

/-- Every cell of the freshly initialized path graph is null. -/
theorem init_path_graph_depth (cap q : Nat) :
    vertex_depth (init_path_graph cap) q = none := by
  simp only [vertex_depth, init_path_graph]
  rw [List.getD_eq_getElem?_getD, List.getElem?_replicate]
  by_cases hq : q < cap
  · rw [if_pos hq]
    simp [NULL_VERTEX]
  · rw [if_neg hq]
    simp [NULL_VERTEX]

/-- The recorded minimum depth of every rid after the edge-generation
phase is the minimum occurrence depth over all sessions. -/
theorem gen_core_depth (cap : Nat) (ss : List (List session_request)) (q : Nat)
    (hcap : cap ≤ REQUEST_ID_INVAL)
    (hb : ∀ s ∈ ss, ∀ x ∈ s, x.rid < cap) :
    vertex_depth (gen_path_graph_core cap ss) q = all_occ_min ss q := by
  suffices h : ∀ (ss2 : List (List session_request)) (pg : path_graph),
      pg.vertices.length = cap →
      (∀ s ∈ ss2, ∀ x ∈ s, x.rid < cap) →
      vertex_depth (ss2.foldl (fun pg s => gen_session_edges pg 1 s) pg) q
        = ss2.foldl (fun o s => mins_from o (occ_depths 1 s q))
            (vertex_depth pg q) by
    have hlen : (init_path_graph cap).vertices.length = cap := by
      simp [init_path_graph]
    have hcore := h ss (init_path_graph cap) hlen hb
    rw [gen_path_graph_core, hcore, init_path_graph_depth]
    rfl
  intro ss2
  induction ss2 with
  | nil => intro pg _ _; rfl
  | cons s rest ih =>
      intro pg hlen hb2
      rw [List.foldl_cons, List.foldl_cons]
      rw [ih (gen_session_edges pg 1 s)
          (by rw [gen_session_edges_length, hlen])
          (fun s2 hs2 => hb2 s2 (List.mem_cons_of_mem s hs2))]
      rw [gen_session_edges_depth s pg 1 q
          (fun x hx => by rw [hlen]; exact hb2 s (List.mem_cons_self s rest) x hx)
          (by rw [hlen]; exact hcap)]

/-- `amend_path_graph_vertex` keeps every cell either null or storing
its own index as rid. -/
theorem amend_rid_index (pg : path_graph) (depth rid er ts ets : Nat)
    (hp : ∀ q2, (pg.vertices.getD q2 NULL_VERTEX).rid = q2
        ∨ (pg.vertices.getD q2 NULL_VERTEX).rid = REQUEST_ID_INVAL) :
    ∀ q2, ((amend_path_graph_vertex pg depth rid er ts ets).vertices.getD q2
          NULL_VERTEX).rid = q2
      ∨ ((amend_path_graph_vertex pg depth rid er ts ets).vertices.getD q2
          NULL_VERTEX).rid = REQUEST_ID_INVAL := by
  intro q2
  rcases Nat.lt_or_ge rid pg.vertices.length with hlt | hge
  · have hset : ∀ v' : path_graph_vertex,
        (pg.vertices.set rid v').getD rid NULL_VERTEX = v' := by
      intro v'
      rw [List.getD_eq_getElem?_getD, List.getElem?_set_self hlt]
      rfl
    have hset_ne : ∀ (v' : path_graph_vertex), q2 ≠ rid →
        (pg.vertices.set rid v').getD q2 NULL_VERTEX
          = pg.vertices.getD q2 NULL_VERTEX := by
      intro v' hne
      rw [List.getD_eq_getElem?_getD,
        List.getElem?_set_ne (fun h => hne h.symm),
        ← List.getD_eq_getElem?_getD]
    by_cases hq : q2 = rid
    · subst hq
      by_cases h1 : (pg.vertices.getD q2 NULL_VERTEX).rid = REQUEST_ID_INVAL
      · by_cases h2 : er ≠ REQUEST_ID_INVAL
        · simp only [amend_path_graph_vertex, if_pos h1, if_pos h2]
          rw [hset]
          exact Or.inl rfl
        · simp only [amend_path_graph_vertex, if_pos h1, if_neg h2]
          rw [hset]
          exact Or.inl rfl
      · have hpq : (pg.vertices.getD q2 NULL_VERTEX).rid = q2 :=
          (hp q2).resolve_right h1
        by_cases h2 : er = REQUEST_ID_INVAL
        · simp only [amend_path_graph_vertex, if_neg h1, if_pos h2]
          rw [hset]
          exact Or.inl hpq
        · rcases hbe : bump_edge (pg.vertices.getD q2 NULL_VERTEX).edges er
              (((ets : ℚ)) - ((ts : ℚ))) with _ | es2
          · simp only [amend_path_graph_vertex, if_neg h1, if_neg h2, hbe]
            rw [hset]
            exact Or.inl hpq
          · simp only [amend_path_graph_vertex, if_neg h1, if_neg h2, hbe]
            rw [hset]
            exact Or.inl hpq
    · by_cases h1 : (pg.vertices.getD rid NULL_VERTEX).rid = REQUEST_ID_INVAL
      · by_cases h2 : er ≠ REQUEST_ID_INVAL
        · simp only [amend_path_graph_vertex, if_pos h1, if_pos h2]
          rw [hset_ne _ hq]
          exact hp q2
        · simp only [amend_path_graph_vertex, if_pos h1, if_neg h2]
          rw [hset_ne _ hq]
          exact hp q2
      · by_cases h2 : er = REQUEST_ID_INVAL
        · simp only [amend_path_graph_vertex, if_neg h1, if_pos h2]
          rw [hset_ne _ hq]
          exact hp q2
        · rcases hbe : bump_edge (pg.vertices.getD rid NULL_VERTEX).edges er
              (((ets : ℚ)) - ((ts : ℚ))) with _ | es2
          · simp only [amend_path_graph_vertex, if_neg h1, if_neg h2, hbe]
            rw [hset_ne _ hq]
            exact hp q2
          · simp only [amend_path_graph_vertex, if_neg h1, if_neg h2, hbe]
            rw [hset_ne _ hq]
            exact hp q2
  · have hnull : (pg.vertices.getD rid NULL_VERTEX).rid = REQUEST_ID_INVAL := by
      rw [List.getD_eq_getElem?_getD, List.getElem?_eq_none hge]
      rfl
    have hnoop : ∀ v' : path_graph_vertex, pg.vertices.set rid v' = pg.vertices :=
      fun v' => List.set_eq_of_length_le hge
    by_cases h2 : er ≠ REQUEST_ID_INVAL
    · simp only [amend_path_graph_vertex, if_pos hnull, if_pos h2, hnoop]
      exact hp q2
    · simp only [amend_path_graph_vertex, if_pos hnull, if_neg h2, hnoop]
      exact hp q2

/-- Every cell of the generated core graph is null or stores its own
index as rid. -/
theorem gen_core_rid_index (cap : Nat) (ss : List (List session_request)) :
    ∀ q, ((gen_path_graph_core cap ss).vertices.getD q NULL_VERTEX).rid = q
      ∨ ((gen_path_graph_core cap ss).vertices.getD q NULL_VERTEX).rid
          = REQUEST_ID_INVAL := by
  suffices h : ∀ (ss2 : List (List session_request)) (pg : path_graph),
      (∀ q2, (pg.vertices.getD q2 NULL_VERTEX).rid = q2
        ∨ (pg.vertices.getD q2 NULL_VERTEX).rid = REQUEST_ID_INVAL) →
      ∀ q, (((ss2.foldl (fun pg s => gen_session_edges pg 1 s) pg)).vertices.getD
            q NULL_VERTEX).rid = q
        ∨ (((ss2.foldl (fun pg s => gen_session_edges pg 1 s) pg)).vertices.getD
            q NULL_VERTEX).rid = REQUEST_ID_INVAL by
    refine h ss (init_path_graph cap) ?_
    intro q2
    right
    have := init_path_graph_depth cap q2
    simp only [vertex_depth] at this
    by_contra hc
    rw [if_neg hc] at this
    simp at this
  have hwalk : ∀ (l : List session_request) (pg : path_graph) (d : Nat),
      (∀ q2, (pg.vertices.getD q2 NULL_VERTEX).rid = q2
        ∨ (pg.vertices.getD q2 NULL_VERTEX).rid = REQUEST_ID_INVAL) →
      ∀ q2, ((gen_session_edges pg d l).vertices.getD q2 NULL_VERTEX).rid = q2
        ∨ ((gen_session_edges pg d l).vertices.getD q2 NULL_VERTEX).rid
            = REQUEST_ID_INVAL := by
    intro l
    induction l with
    | nil => intro pg d hp; exact hp
    | cons x rest ih =>
        intro pg d hp
        exact ih _ _ (amend_rid_index pg d x.rid (next_rid rest) x.ts
          (next_ts rest) hp)
  intro ss2
  induction ss2 with
  | nil => intro pg hp; exact hp
  | cons s rest ih =>
      intro pg hp
      exact ih _ (hwalk s pg 1 hp)

/-- Occurrence depths are bounded below by the starting depth. -/
theorem occ_depths_lower (q : Nat) :
    ∀ (l : List session_request) (d : Nat), ∀ m ∈ occ_depths d l q, d ≤ m := by
  intro l
  induction l with
  | nil => intro d m hm; simp [occ_depths] at hm
  | cons x rest ih =>
      intro d m hm
      rw [occ_depths] at hm
      rcases List.mem_append.mp hm with hm | hm
      · by_cases hx : x.rid = q
        · rw [if_pos hx] at hm
          simp at hm
          omega
        · rw [if_neg hx] at hm
          simp at hm
      · have hrec := ih (if x.rid = next_rid rest then d else d + 1) m hm
        by_cases hnext : x.rid = next_rid rest
        · rw [if_pos hnext] at hrec
          exact hrec
        · rw [if_neg hnext] at hrec
          omega

/-- A lower bound on all folded values and the accumulator is a lower
bound on the resulting minimum. -/
theorem mins_from_lower :
    ∀ (ds : List Nat) (o : Option Nat) (c : Nat),
      (∀ x ∈ ds, c ≤ x) → (∀ mo, o = some mo → c ≤ mo) →
      ∀ m, mins_from o ds = some m → c ≤ m := by
  intro ds
  induction ds with
  | nil => intro o c _ ho m hm; exact ho m hm
  | cons d rest ih =>
      intro o c hds ho m hm
      rw [mins_from, List.foldl_cons] at hm
      refine ih (merge_min o d) c
        (fun x hx => hds x (List.mem_cons_of_mem d hx)) ?_ m hm
      intro mo hmo
      cases o with
      | none =>
          simp [merge_min] at hmo
          subst hmo
          exact hds d (List.mem_cons_self d rest)
      | some m0 =>
          simp [merge_min] at hmo
          subst hmo
          exact Nat.le_min.mpr ⟨ho m0 rfl, hds d (List.mem_cons_self d rest)⟩

/-- Minimum occurrence depths are at least `1`. -/
theorem all_occ_min_lower :
    ∀ (ss : List (List session_request)) (q : Nat) (o : Option Nat),
      (∀ mo, o = some mo → 1 ≤ mo) →
      ∀ m, ss.foldl (fun o s => mins_from o (occ_depths 1 s q)) o = some m →
        1 ≤ m := by
  intro ss
  induction ss with
  | nil => intro q o ho m hm; exact ho m hm
  | cons s rest ih =>
      intro q o ho m hm
      rw [List.foldl_cons] at hm
      refine ih q _ ?_ m hm
      intro mo hmo
      exact mins_from_lower (occ_depths 1 s q) o 1 (occ_depths_lower q s 1) ho
        mo hmo

/-- C3 (amended): after the edge-generation phase — and in whatever
order the final sort leaves the vertices — every non-null vertex `v`
has `v.min_depth ≥ 1`, and `v.min_depth` equals the minimum over all
sessions of the *depth* of `v`'s occurrences in the walked request
list, where the occurrence at index `i` has depth
`1 + #{j < i | l[j].rid ≠ l[j+1].rid}` (self-loop transitions do not
deepen).  This minimum is *not* in general the smallest 1-based
position of `v` in a session list: adjacent repeats make the depth lag
behind the position. -/
theorem C3_min_depth (cap : Nat) (ss : List (List session_request))
    (hcap : cap ≤ REQUEST_ID_INVAL)
    (hb : ∀ s ∈ ss, ∀ x ∈ s, x.rid < cap)
    (vs : List path_graph_vertex)
    (hperm : vs.Perm (gen_path_graph_core cap ss).vertices) :
    ∀ v ∈ vs, v.rid ≠ REQUEST_ID_INVAL →
      1 ≤ v.min_depth ∧ some v.min_depth = all_occ_min ss v.rid := by
  intro v hv hnn
  have hvmem : v ∈ (gen_path_graph_core cap ss).vertices :=
    hperm.mem_iff.mp hv
  obtain ⟨i, hi, hget⟩ := List.mem_iff_getElem.mp hvmem
  have hgetD : (gen_path_graph_core cap ss).vertices.getD i NULL_VERTEX = v := by
    rw [List.getD_eq_getElem?_getD, List.getElem?_eq_getElem hi]
    exact hget
  have hrid : v.rid = i := by
    rcases gen_core_rid_index cap ss i with h | h
    · rw [hgetD] at h
      exact h
    · rw [hgetD] at h
      exact absurd h hnn
  have hdepth : vertex_depth (gen_path_graph_core cap ss) i
      = some v.min_depth := by
    simp only [vertex_depth]
    rw [hgetD, if_neg hnn]
  have hocc : vertex_depth (gen_path_graph_core cap ss) i = all_occ_min ss i :=
    gen_core_depth cap ss i hcap hb
  have hmain : all_occ_min ss i = some v.min_depth := hocc.symm.trans hdepth
  constructor
  · have hfold : ss.foldl (fun o s => mins_from o (occ_depths 1 s i)) none
        = some v.min_depth := hmain
    exact all_occ_min_lower ss i none (by simp) v.min_depth hfold
  · rw [hrid]
    exact hmain.symm

/-- Witness for C3: one single-request session. -/
theorem C3_min_depth_witness :
    (1 : Nat) ≤ REQUEST_ID_INVAL
    ∧ (∀ s ∈ [[(⟨0, 7⟩ : session_request)]], ∀ x ∈ s, x.rid < 1)
    ∧ (gen_path_graph_core 1 [[⟨0, 7⟩]]).vertices.Perm
        (gen_path_graph_core 1 [[⟨0, 7⟩]]).vertices
    ∧ ∀ v ∈ (gen_path_graph_core 1 [[⟨0, 7⟩]]).vertices,
        v.rid ≠ REQUEST_ID_INVAL →
        1 ≤ v.min_depth ∧ some v.min_depth = all_occ_min [[⟨0, 7⟩]] v.rid :=
  ⟨by decide, by decide, List.Perm.refl _,
    C3_min_depth 1 [[⟨0, 7⟩]] (by decide) (by decide) _ (List.Perm.refl _)⟩

/-- Counterexample to C3 as stated: for the single (already
timestamp-sorted) session `[(rid 0, ts 0), (rid 0, ts 1), (rid 1, ts 2)]`
the vertex of rid `1` gets `min_depth = 2` (the adjacent self-repeat of
rid `0` does not deepen), while the smallest 1-based position of rid `1`
in the sorted request list is `3`. -/
theorem C3_counterexample :
    List.Pairwise (fun a b => a.ts ≤ b.ts)
        [(⟨0, 0⟩ : session_request), ⟨0, 1⟩, ⟨1, 2⟩]
    ∧ vertex_depth (gen_path_graph_core 2 [[⟨0, 0⟩, ⟨0, 1⟩, ⟨1, 2⟩]]) 1
        = some 2
    ∧ all_pos_min [[⟨0, 0⟩, ⟨0, 1⟩, ⟨1, 2⟩]] 1 = some 3
    ∧ ((gen_path_graph_core 2 [[⟨0, 0⟩, ⟨0, 1⟩, ⟨1, 2⟩]]).vertices.getD 1
        NULL_VERTEX).min_depth
      ≠ 3 := by
  refine ⟨by decide, by decide, by decide, by decide⟩
